import Mathlib

/-!
Verification development for the daifugo rules engine.

Shallow embedding of the Rust sources: the card model (card.rs), the
combination classifier (comb.rs), the suit lock tracker (suit_binder.rs),
the turn and finish tracker (indexer.rs) and the field state machine
(field.rs).  Machine integers (usize, i32) are modelled with Nat and Int;
operations that can panic in the source (an unwrap of a missing value, an
unchecked usize decrement, a remainder by zero, an index into an empty
vector) are modelled with Option, none standing for the panic, at the points
the statements below depend on.  Out-of-range cursor accesses in the finish
calls of the turn tracker are modelled totally (getD, truncating Nat
subtraction) and the theorems that touch them carry an explicit in-range
hypothesis.
-/

set_option autoImplicit false

namespace Daifugo

/-- Suit enumeration, in the derived order of the source (Club < Diamond < Heart < Spade). -/
inductive Suit : Type where
  | Club
  | Diamond
  | Heart
  | Spade
deriving DecidableEq, Fintype

/-- Rank enumeration, in the derived order of the source (Three lowest, Two highest). -/
inductive Rank : Type where
  | Three
  | Four
  | Five
  | Six
  | Seven
  | Eight
  | Nine
  | Ten
  | Jack
  | Queen
  | King
  | Ace
  | Two
deriving DecidableEq, Fintype

/-- The From implementation for Rank in card.rs: the dense 0..12 position used for run arithmetic.
This numbering is strictly increasing along the derived order of Rank, so comparing two ranks
by their numbers agrees with the derived Ord instance of the source. -/
def rankNum : Rank → Int
  | .Three => 0
  | .Four => 1
  | .Five => 2
  | .Six => 3
  | .Seven => 4
  | .Eight => 5
  | .Nine => 6
  | .Ten => 7
  | .Jack => 8
  | .Queen => 9
  | .King => 10
  | .Ace => 11
  | .Two => 12

/-- Discriminant of Suit, fixing the derived Ord instance of the source. -/
def suitNum : Suit → Nat
  | .Club => 0
  | .Diamond => 1
  | .Heart => 2
  | .Spade => 3

/-- Comparison of ranks, as the derived Ord instance of the source. -/
def rankCmp (r1 r2 : Rank) : Ordering := compare (rankNum r1) (rankNum r2)

/-- Comparison of suits, as the derived Ord instance of the source. -/
def suitCmp (s1 s2 : Suit) : Ordering := compare (suitNum s1) (suitNum s2)

/-- Card: either a normal card with suit and rank, or the Joker wildcard. -/
inductive Card : Type where
  | Normal (s : Suit) (r : Rank)
  | Joker
deriving DecidableEq, Fintype

/-- Derived Ord instance on Card from the source: Normal compares suit first then rank,
and the Joker variant is greater than every Normal card. -/
def cardCmp : Card → Card → Ordering
  | .Normal s1 r1, .Normal s2 r2 => (suitCmp s1 s2).then (rankCmp r1 r2)
  | .Normal _ _, .Joker => .lt
  | .Joker, .Normal _ _ => .gt
  | .Joker, .Joker => .eq

/-- The cmp_rank comparator of card.rs: two normal cards compare by rank only;
any pair involving a Joker falls back to the derived Card order. -/
def cmp_rank : Card → Card → Ordering
  | .Normal _ r1, .Normal _ r2 => rankCmp r1 r2
  | c1, c2 => cardCmp c1 c2

/-- The cmp_rank_reversely comparator of card.rs: rank comparison with the
arguments swapped for two normal cards; Joker pairs fall back to the derived order. -/
def cmp_rank_reversely : Card → Card → Ordering
  | .Normal _ r1, .Normal _ r2 => rankCmp r2 r1
  | c1, c2 => cardCmp c1 c2

/-- Rank of a card, none for the Joker (the closure used by the filter_map calls of the source). -/
def cardRank : Card → Option Rank
  | .Normal _ r => some r
  | .Joker => none

/-- Suit of a card, none for the Joker. -/
def cardSuit : Card → Option Suit
  | .Normal s _ => some s
  | .Joker => none

/-- Numeric rank position of a card, none for the Joker (i32::from composed with cardRank). -/
def cardNum : Card → Option Int
  | .Normal _ r => some (rankNum r)
  | .Joker => none

/-- Combination shapes of comb.rs: a single card, a same-rank group (Multi),
or a same-suit run (Seq). -/
inductive Comb : Type where
  | Single (c : Card)
  | Multi (cards : List Card)
  | Seq (cards : List Card)
deriving DecidableEq

/-- Minimum size of a Multi (comb.rs MIN_MULTI). -/
def MIN_MULTI : Nat := 2

/-- Minimum size of a Seq (comb.rs MIN_SEQ). -/
def MIN_SEQ : Nat := 3

/-- Helper for the tuple_windows all-equal pattern of the source: every pair of
adjacent elements is equal. -/
def allAdjEq {α : Type} [BEq α] : List α → Bool
  | a :: b :: rest => a == b && allAdjEq (b :: rest)
  | _ => true

/-- is_same_ranks of comb.rs: all non-joker cards carry the same rank
(adjacent pairwise equality of the extracted ranks). -/
def is_same_ranks (cards : List Card) : Bool :=
  allAdjEq (cards.filterMap cardRank)

/-- is_same_suits of comb.rs: all non-joker cards carry the same suit. -/
def is_same_suits (cards : List Card) : Bool :=
  allAdjEq (cards.filterMap cardSuit)

/-- Position of the first Joker, as iter().position does in the source. -/
def jokerIdx : List Card → Option Nat
  | [] => none
  | c :: cs => if c == Card.Joker then some 0 else (jokerIdx cs).map (· + 1)

/-- Indexing followed by unwrap on a vector of optional numbers: none models the
panic of the source (out of range, or unwrap of a None entry). -/
def getNum (nums : List (Option Int)) (i : Nat) : Option Int :=
  match nums.get? i with
  | some (some v) => some v
  | _ => none

/-- Differences of adjacent elements, as the tuple_windows map of the source. -/
def adjDiffs : List Int → List Int
  | v1 :: v2 :: rest => (v2 - v1) :: adjDiffs (v2 :: rest)
  | _ => []

/-- Final check of is_seq: the set of adjacent differences is a singleton whose
element has absolute value 1.  The HashSet of the source is modelled by
requiring every difference to equal the first one. -/
def diffsOk (vals : List Int) : Bool :=
  match adjDiffs vals with
  | [] => false
  | d :: ds => ds.all (· == d) && d.natAbs == 1

/-- is_seq of comb.rs.  Returns none where the source panics: the substitution
branch unwraps the numeric value of a neighbour of the first Joker, which
fails when that neighbour is itself a Joker.  The division in the interior
branch only ever sees non-negative operands (rank positions are 0..12), where
Int division agrees with the i32 division of the source. -/
def is_seq (cards : List Card) : Option Bool :=
  if cards.length < MIN_SEQ then some false
  else
    match jokerIdx cards with
    | some idx =>
      let nums := cards.map cardNum
      let subst : Option (List (Option Int)) :=
        if idx == 0 then
          match getNum nums (idx + 1), getNum nums (idx + 2) with
          | some x, some y => some (nums.set idx (some (2 * x - y)))
          | _, _ => none
        else if idx == nums.length - 1 then
          match getNum nums (idx - 2), getNum nums (idx - 1) with
          | some x, some y => some (nums.set idx (some (2 * y - x)))
          | _, _ => none
        else
          match getNum nums (idx - 1), getNum nums (idx + 1) with
          | some v1, some v2 => some (nums.set idx (some ((v1 + v2) / 2)))
          | _, _ => none
      match subst with
      | some nums2 => some (diffsOk (nums2.filterMap id))
      | none => none
    | none => some (diffsOk (cards.filterMap cardNum))

/-- TryFrom of comb.rs for Comb.  The outer Option models the panic of is_seq
(none = panic); the inner Option models the Result (none = Err, the reject
outcome).  The guards mirror the short-circuit order of the source: is_seq is
only evaluated when the length and suit checks already passed. -/
def Comb.tryFrom (cards : List Card) : Option (Option Comb) :=
  if cards.length < MIN_MULTI then some none
  else if is_same_ranks cards then some (some (Comb.Multi cards))
  else if MIN_SEQ ≤ cards.length ∧ is_same_suits cards = true then
    match is_seq cards with
    | none => none
    | some true => some (some (Comb.Seq cards))
    | some false => some none
  else some none

/-- Body of the all-closure of is_greater: two normal cards compare by the
comparator, a pair containing a Joker is accepted. -/
def zipPosGt (cmp : Card → Card → Ordering) (c1 c2 : Card) : Bool :=
  match c1, c2 with
  | Card.Normal _ _, Card.Normal _ _ => cmp c1 c2 == .gt
  | _, _ => true

/-- Position-by-position comparison used by is_greater for Multi and Seq:
equal lengths, and every zipped pair is either greater under the comparator or
contains a Joker on either side (automatically satisfied). -/
def pairGt (cs1 cs2 : List Card) (cmp : Card → Card → Ordering) : Bool :=
  if cs1.length != cs2.length then false
  else (cs1.zip cs2).all fun p => zipPosGt cmp p.1 p.2

/-- is_greater of comb.rs: the receiver is the candidate, the argument the
previous combination.  Mixed shapes are never greater. -/
def Comb.is_greater (c1 c2 : Comb) (cmp : Card → Card → Ordering) : Bool :=
  match c1, c2 with
  | .Single card1, .Single card2 => cmp card1 card2 == .gt
  | .Multi cards1, .Multi cards2 => pairGt cards1 cards2 cmp
  | .Seq cards1, .Seq cards2 => pairGt cards1 cards2 cmp
  | _, _ => false

/-- get_suits of suit_binder.rs: the ordered suits of the non-joker cards. -/
def get_suits (cards : List Card) : List Suit :=
  cards.filterMap cardSuit

/-- State of the suit lock tracker of suit_binder.rs: the active lock pattern
and the pending pattern of the most recent play. -/
structure SuitBinder : Type where
  suits : Option (List Suit)
  prev_suits : Option (List Suit)
deriving DecidableEq

/-- SuitBinder::new. -/
def SuitBinder.new : SuitBinder := { suits := none, prev_suits := none }

/-- SuitBinder::is_activate: the lock is active. -/
def SuitBinder.is_activate (b : SuitBinder) : Bool := b.suits.isSome

/-- SuitBinder::push.  Returns none where the source panics: for a normal
Single the guard indexes the first element of the pending pattern, which fails
when that pattern is the empty list.  Promotion moves the whole pending
pattern into the active slot and empties the pending slot; the returned
boolean of the source (is_activate after the update) is recovered from the
result. -/
def SuitBinder.push (b : SuitBinder) (c : Comb) : Option SuitBinder :=
  match c with
  | .Single (Card.Normal s _) =>
    match b.prev_suits with
    | some suits =>
      match suits.head? with
      | none => none
      | some s0 =>
        if s = s0 then some { suits := b.prev_suits, prev_suits := none }
        else some { b with prev_suits := some [s] }
    | none => some { b with prev_suits := some [s] }
  | .Multi cards | .Seq cards =>
    if cards.contains Card.Joker then some { b with prev_suits := none }
    else
      match b.prev_suits with
      | some suits =>
        if suits = get_suits cards then some { suits := b.prev_suits, prev_suits := none }
        else some { b with prev_suits := some (get_suits cards) }
      | none => some { b with prev_suits := some (get_suits cards) }
  | .Single Card.Joker => some { b with prev_suits := none }

/-- SuitBinder::clear: drop both patterns. -/
def SuitBinder.clear (_b : SuitBinder) : SuitBinder := { suits := none, prev_suits := none }

/-- SuitBinder::is_valid: with no active lock everything is accepted; with an
active pattern the candidate must match it positionally, a Joker in the
candidate always satisfying its position (a Seq must match the first suit of
the pattern at every position). -/
def SuitBinder.is_valid (b : SuitBinder) (c : Comb) : Bool :=
  match b.suits with
  | some suits =>
    match c with
    | .Single card =>
      suits.length == 1 &&
        (match card with
         | Card.Normal s _ => decide (some s = suits.head?)
         | Card.Joker => true)
    | .Multi cards =>
      cards.length == suits.length &&
        (cards.zip suits).all fun p =>
          match p.1 with
          | Card.Normal s _ => s == p.2
          | Card.Joker => true
    | .Seq cards =>
      cards.length == suits.length &&
        cards.all fun card =>
          match card with
          | Card.Normal s _ => decide (some s = suits.head?)
          | Card.Joker => true
  | none => true

/-- Writes a player into the first unfilled finish slot (the find of
Indexer::set_player_rank); leaves the list unchanged when every slot is full. -/
def setFirstNone : List (Option Nat) → Nat → List (Option Nat)
  | [], _ => []
  | none :: rest, p => some p :: rest
  | some q :: rest, p => some q :: setFirstNone rest p

/-- Writes a player into the last unfilled finish slot (the reversed find of
Indexer::set_rank_back); leaves the list unchanged when every slot is full. -/
def setLastNone : List (Option Nat) → Nat → List (Option Nat)
  | [], _ => []
  | x :: rest, p =>
    if rest.contains none then x :: setLastNone rest p
    else
      match x with
      | none => some p :: rest
      | some q => some q :: rest

/-- State of the turn and finish tracker of indexer.rs. -/
structure Indexer : Type where
  idx : Nat
  active_players : List Nat
  player_rank : List (Option Nat)
deriving DecidableEq

/-- Indexer::new. -/
def Indexer.new (players_count : Nat) (idx : Nat) : Indexer :=
  { idx := idx,
    active_players := List.range players_count,
    player_rank := List.replicate players_count none }

/-- Indexer::get_idx: the player at the cursor.  The source indexes the vector
and panics out of range; the model totalises with a default and the theorems
that use it assume an in-range cursor. -/
def Indexer.get_idx (ix : Indexer) : Nat :=
  ix.active_players.getD ix.idx 0

/-- Indexer::count_active_players. -/
def Indexer.count_active_players (ix : Indexer) : Nat :=
  ix.active_players.length

/-- Indexer::next: advance the cursor cyclically.  The source takes a modulus
by the length of the active list; none models the remainder-by-zero panic of
the source when that list is empty. -/
def Indexer.next (ix : Indexer) : Option Indexer :=
  if ix.active_players.length = 0 then none
  else some { ix with idx := (ix.idx + 1) % ix.active_players.length }

/-- Indexer::set_player_rank: write into the first unfilled finish slot. -/
def Indexer.set_player_rank (ix : Indexer) (player : Nat) : Indexer :=
  { ix with player_rank := setFirstNone ix.player_rank player }

/-- Indexer::set_rank_front: remove the current player, write it to the first
unfilled finish slot, clamp the cursor, and auto-finish a sole survivor into
the next front slot.  The Vec::remove of the source panics on an out-of-range
cursor (modelled with eraseIdx and getD), and the clamp subtracts one from a
usize length (truncating Nat subtraction here; the source value underflows
only when the function is entered with a single active player). -/
def Indexer.set_rank_front (ix : Indexer) : Indexer :=
  let player := ix.active_players.getD ix.idx 0
  let active := ix.active_players.eraseIdx ix.idx
  let idx2 := if ix.idx > active.length - 1 then 0 else ix.idx
  let rank1 := setFirstNone ix.player_rank player
  if active.length = 1 then
    { idx := idx2, active_players := [],
      player_rank := setFirstNone rank1 (active.getD 0 0) }
  else
    { idx := idx2, active_players := active, player_rank := rank1 }

/-- Indexer::set_rank_back: as set_rank_front but the removed player goes to
the last unfilled finish slot; the sole-survivor auto-finish still writes to
the front. -/
def Indexer.set_rank_back (ix : Indexer) : Indexer :=
  let player := ix.active_players.getD ix.idx 0
  let active := ix.active_players.eraseIdx ix.idx
  let idx2 := if ix.idx > active.length - 1 then 0 else ix.idx
  let rank1 := setLastNone ix.player_rank player
  if active.length = 1 then
    { idx := idx2, active_players := [],
      player_rank := setFirstNone rank1 (active.getD 0 0) }
  else
    { idx := idx2, active_players := active, player_rank := rank1 }

/-- Indexer::get_player_rank: the filled finish slots in order. -/
def Indexer.get_player_rank (ix : Indexer) : List Nat :=
  ix.player_rank.filterMap id

/-- Effect flags of field.rs (bitflags modelled as a record of booleans). -/
structure Flags : Type where
  bind : Bool := false
  eight : Bool := false
  rev : Bool := false
  out : Bool := false
  lose : Bool := false
deriving DecidableEq

/-- Flags::empty. -/
def Flags.empty : Flags := {}

/-- get_rank of field.rs: the rank of the first non-joker card. -/
def get_rank (cards : List Card) : Option Rank :=
  cards.findSome? cardRank

/-- contains_eight of field.rs: a Single Eight, or a Multi whose representative
rank is Eight; a Seq is never an eight combination. -/
def contains_eight : Comb → Bool
  | .Single (Card.Normal _ Rank.Eight) => true
  | .Multi cards => get_rank cards == some Rank.Eight
  | _ => false

/-- contains_especial_card of field.rs: the forbidden-finish test against the
especial ranks (Eight and Two, or Eight and Three when power is reversed). -/
def contains_especial_card (c : Comb) (is_rev : Bool) : Bool :=
  let especial_ranks : List Rank :=
    if is_rev then [Rank.Eight, Rank.Three] else [Rank.Eight, Rank.Two]
  match c with
  | .Single (Card.Normal _ r) => especial_ranks.contains r
  | .Single Card.Joker => true
  | .Multi cards =>
    match get_rank cards with
    | some r => especial_ranks.contains r
    | none => false
  | .Seq _ => false

/-- is_rev_comb of field.rs: a Multi of four or more cards reverses power. -/
def is_rev_comb : Comb → Bool
  | .Multi cards => decide (4 ≤ cards.length)
  | _ => false

/-- State of the field state machine of field.rs. -/
structure Field : Type where
  prev_comb : Option Comb
  indexer : Indexer
  binder : SuitBinder
  pass_counter : Nat
  is_rev : Bool
deriving DecidableEq

/-- Field::new. -/
def Field.new (players_count : Nat) (start_idx : Nat) : Field :=
  { prev_comb := none,
    indexer := Indexer.new players_count start_idx,
    binder := SuitBinder.new,
    pass_counter := 0,
    is_rev := false }

/-- Field::put, the sole mutator.  none models a panic of the source: the
unchecked usize decrement of the pass counter at zero, the remainder-by-zero
of the cursor advance on an empty active list (in the non-eight advance step
and at the end of the pass branch), or the push panic propagated out of the
suit binder (the source short-circuits push behind the eight flag and the
is_activate check, mirrored here).  The reset of the pass counter subtracts
one from the active-player count with truncating Nat subtraction; the source
value underflows only when put is called with no active players. -/
def Field.put (f : Field) (new_comb : Option Comb) (hands_count : Nat) :
    Option (Field × Flags) :=
  match new_comb with
  | some comb =>
    let pc := f.indexer.count_active_players - 1
    let eight_flag := contains_eight comb
    let step1 : Option (Indexer × SuitBinder × Flags) :=
      if 0 < hands_count then
        if eight_flag then
          some (f.indexer, SuitBinder.clear f.binder, { Flags.empty with eight := true })
        else
          match Indexer.next f.indexer with
          | none => none
          | some ix2 => some (ix2, f.binder, Flags.empty)
      else if contains_especial_card comb f.is_rev then
        some (Indexer.set_rank_back f.indexer, f.binder, { Flags.empty with lose := true })
      else
        some (Indexer.set_rank_front f.indexer, f.binder, { Flags.empty with out := true })
    match step1 with
    | none => none
    | some (ixr, bdr, fl) =>
      let step2 : Option (SuitBinder × Flags) :=
        if !eight_flag && !(SuitBinder.is_activate bdr) then
          match SuitBinder.push bdr comb with
          | none => none
          | some b2 =>
            some (b2, if SuitBinder.is_activate b2 then { fl with bind := true } else fl)
        else some (bdr, fl)
      match step2 with
      | none => none
      | some (bdr2, fl2) =>
        some ({ prev_comb := if eight_flag then none else some comb,
                indexer := ixr,
                binder := bdr2,
                pass_counter := pc,
                is_rev := if is_rev_comb comb then !f.is_rev else f.is_rev },
              if is_rev_comb comb then { fl2 with rev := true } else fl2)
  | none =>
    if f.pass_counter = 0 then none
    else
      let pc := f.pass_counter - 1
      match Indexer.next f.indexer with
      | none => none
      | some ix2 =>
        some ({ prev_comb := if pc = 0 then none else f.prev_comb,
                indexer := ix2,
                binder := if pc = 0 then SuitBinder.clear f.binder else f.binder,
                pass_counter := pc,
                is_rev := f.is_rev },
              Flags.empty)

/-- Field::is_valid (the Validator impl): with no previous combination every
candidate is valid; otherwise the suit binder must accept it and it must be
strictly greater under the rank-only comparator selected by the reversal flag. -/
def Field.is_valid (f : Field) (c : Comb) : Bool :=
  match f.prev_comb with
  | some prev =>
    let comparator := if f.is_rev then cmp_rank_reversely else cmp_rank
    SuitBinder.is_valid f.binder c && Comb.is_greater c prev comparator
  | none => true

/-!
Specification-side definitions.  Each of these transcribes the wording of the
specification (not the code); the theorems below relate them to the
definitions taken from the source.
-/

/-- Position test of the specification comparison rule: a position holding a
Joker on either side is automatically satisfied, otherwise the position must
be strictly greater under the comparator. -/
def jokerWildGt (cmp : Card → Card → Ordering) (c1 c2 : Card) : Bool :=
  match c1, c2 with
  | Card.Normal _ _, Card.Normal _ _ => cmp c1 c2 == .gt
  | _, _ => true

/-- Combination comparison rule as the specification words it: comparable only
at the same shape and the same length; Single against Single by the one card;
Group against Group and Run against Run position by position, every position
required to be satisfied; different shapes or lengths are never greater. -/
def specGreater (cmp : Card → Card → Ordering) (c1 c2 : Comb) : Bool :=
  match c1, c2 with
  | .Single a, .Single b => cmp a b == .gt
  | .Multi cs1, .Multi cs2 =>
    cs1.length == cs2.length &&
      (List.range cs1.length).all fun i =>
        jokerWildGt cmp (cs1.getD i Card.Joker) (cs2.getD i Card.Joker)
  | .Seq cs1, .Seq cs2 =>
    cs1.length == cs2.length &&
      (List.range cs1.length).all fun i =>
        jokerWildGt cmp (cs1.getD i Card.Joker) (cs2.getD i Card.Joker)
  | _, _ => false

/-- Forbidden-finish test as the claim words it: a Single Joker; a Single
normal card of rank Eight, or Two when power is not reversed, Three when it
is; a Group whose representative rank (the rank of its first non-joker card)
lies in that same set; a Run never. -/
def forbiddenFinish (c : Comb) (is_rev : Bool) : Bool :=
  match c with
  | .Single Card.Joker => true
  | .Single (Card.Normal _ r) =>
    r == Rank.Eight || (if is_rev then r == Rank.Three else r == Rank.Two)
  | .Multi cards =>
    match (cards.filterMap cardRank).head? with
    | some r => r == Rank.Eight || (if is_rev then r == Rank.Three else r == Rank.Two)
    | none => false
  | .Seq _ => false

/-- Eight-play test as the claim words it: a Single Eight, or a Group whose
representative rank (the rank of its first non-joker card) is Eight; a Run
never. -/
def specIsEight : Comb → Bool
  | .Single (Card.Normal _ r) => r == Rank.Eight
  | .Multi cards =>
    match (cards.filterMap cardRank).head? with
    | some r => r == Rank.Eight
    | none => false
  | _ => false

/-- Cards strictly before the first Joker. -/
def beforeJoker (cards : List Card) : List Card :=
  cards.takeWhile fun c => !(c == Card.Joker)

/-- Cards strictly after the first Joker. -/
def afterJoker (cards : List Card) : List Card :=
  (cards.dropWhile fun c => !(c == Card.Joker)).drop 1

/-- Joker substitution as the claim words it, on the rank positions ln before
and rn after the single Joker: the Joker becomes 2 * next - next2 when first,
2 * prev - prev2 when last, and the integer-division mean of its neighbours
when interior.  The final case is unreachable for inputs of three or more
cards. -/
def jokerSubstSpec (ln rn : List Int) : List Int :=
  match ln.reverse, rn with
  | [], n1 :: n2 :: _ => (2 * n1 - n2) :: rn
  | p1 :: p2 :: _, [] => ln ++ [2 * p1 - p2]
  | p1 :: _, n1 :: _ => ln ++ (p1 + n1) / 2 :: rn
  | _, _ => ln ++ rn

/-- The index j is the first unfilled finish slot of the list. -/
def isFirstNoneIdx (l : List (Option Nat)) (j : Nat) : Prop :=
  l.get? j = some none ∧ ∀ k, k < j → l.get? k ≠ some none

/-- The index j is the last unfilled finish slot of the list. -/
def isLastNoneIdx (l : List (Option Nat)) (j : Nat) : Prop :=
  l.get? j = some none ∧ ∀ k, j < k → l.get? k ≠ some none

/-- Players this finish call writes into front slots: the removed player for a
front finish, plus the auto-finished sole survivor of either kind of call. -/
def frontFinishers (ix : Indexer) (front : Bool) : List Nat :=
  let removed := ix.active_players.getD ix.idx 0
  let survivors := ix.active_players.eraseIdx ix.idx
  let auto := if survivors.length = 1 then survivors else []
  (if front then [removed] else []) ++ auto

/-- Players this finish call writes into back slots: the removed player of a
back finish. -/
def backFinishers (ix : Indexer) (front : Bool) : List Nat :=
  if front then [] else [ix.active_players.getD ix.idx 0]

/-- Run a mix of front and back finish calls, recording in order the players
written to front slots and to back slots. -/
def runFB : Indexer → List Bool → Indexer × List Nat × List Nat
  | ix, [] => (ix, [], [])
  | ix, b :: bs =>
    let ix2 := if b then ix.set_rank_front else ix.set_rank_back
    let rest := runFB ix2 bs
    (rest.1, frontFinishers ix b ++ rest.2.1, backFinishers ix b ++ rest.2.2)

/-- Suit lock transition exactly as claim C7 of the specification words it: a
Group or Run containing a Joker clears the pending pattern; a jokerless
Single, Group or Run whose own suit pattern equals the pending pattern
promotes the pending pattern to active, and otherwise replaces the pending
pattern with its own.  A Single Joker is not covered by that wording and is
modelled as the code behaves (pending cleared). -/
def specPush (b : SuitBinder) (c : Comb) : SuitBinder :=
  match c with
  | .Single (Card.Normal s _) =>
    if b.prev_suits = some [s] then { suits := b.prev_suits, prev_suits := none }
    else { b with prev_suits := some [s] }
  | .Multi cards | .Seq cards =>
    if cards.contains Card.Joker then { b with prev_suits := none }
    else if b.prev_suits = some (get_suits cards) then
      { suits := b.prev_suits, prev_suits := none }
    else { b with prev_suits := some (get_suits cards) }
  | .Single Card.Joker => { b with prev_suits := none }

/-- Suit lock transition as amended: a normal Single promotes the entire
pending pattern to active whenever its suit equals the first suit of that
pattern, whatever the length of the pattern; otherwise as claimed.  The case
of a normal Single against a pending pattern that is the empty list is a
panic of the source and is excluded by hypothesis where this definition is
used (the value chosen here is arbitrary). -/
def specPushAmended (b : SuitBinder) (c : Comb) : SuitBinder :=
  match c with
  | .Single (Card.Normal s _) =>
    match b.prev_suits with
    | some suits =>
      if suits.head? = some s then { suits := b.prev_suits, prev_suits := none }
      else { b with prev_suits := some [s] }
    | none => { b with prev_suits := some [s] }
  | .Multi cards | .Seq cards =>
    if cards.contains Card.Joker then { b with prev_suits := none }
    else if b.prev_suits = some (get_suits cards) then
      { suits := b.prev_suits, prev_suits := none }
    else { b with prev_suits := some (get_suits cards) }
  | .Single Card.Joker => { b with prev_suits := none }

/-!
Helper lemmas shared by the claim theorems.
-/

theorem zipPosGt_eq_jokerWildGt (cmp : Card → Card → Ordering) (c1 c2 : Card) :
    zipPosGt cmp c1 c2 = jokerWildGt cmp c1 c2 := by
  cases c1 <;> cases c2 <;> rfl

theorem zip_all_eq_range_all (cmp : Card → Card → Ordering) :
    ∀ (cs1 cs2 : List Card), cs1.length = cs2.length →
      ((cs1.zip cs2).all fun p => zipPosGt cmp p.1 p.2) =
        ((List.range cs1.length).all fun i =>
          jokerWildGt cmp (cs1.getD i Card.Joker) (cs2.getD i Card.Joker))
  | [], [], _ => rfl
  | [], _ :: _, h => by simp at h
  | _ :: _, [], h => by simp at h
  | a :: l, b :: m, h => by
    have ih := zip_all_eq_range_all cmp l m (by simpa using h)
    simp only [List.zip_cons_cons, List.all_cons, List.length_cons,
      List.range_succ_eq_map, List.all_map, Function.comp_def,
      List.getD_cons_zero, List.getD_cons_succ]
    rw [ih, zipPosGt_eq_jokerWildGt]

theorem pairGt_eq_spec (cmp : Card → Card → Ordering) (cs1 cs2 : List Card) :
    pairGt cs1 cs2 cmp =
      (cs1.length == cs2.length &&
        (List.range cs1.length).all fun i =>
          jokerWildGt cmp (cs1.getD i Card.Joker) (cs2.getD i Card.Joker)) := by
  unfold pairGt
  by_cases h : cs1.length = cs2.length
  · rw [if_neg (by simp [h]), zip_all_eq_range_all cmp cs1 cs2 h]
    simp [h]
  · rw [if_pos (by simp [h])]
    simp [h]

theorem is_greater_eq_specGreater (cmp : Card → Card → Ordering) (c1 c2 : Comb) :
    Comb.is_greater c1 c2 cmp = specGreater cmp c1 c2 := by
  cases c1 <;> cases c2 <;> try rfl
  case Multi.Multi cs1 cs2 => exact pairGt_eq_spec cmp cs1 cs2
  case Seq.Seq cs1 cs2 => exact pairGt_eq_spec cmp cs1 cs2

/-- C2: with no previous combination on the table every candidate is valid;
otherwise validity is acceptance by the suit lock tracker together with being
strictly greater than the previous combination under the rank-only comparator
selected by the power-reversal flag, greatness as the specification comparison
rule states it (same shape and length, Single by the one card, Group and Run
position by position with Joker positions automatically satisfied and every
position required, never across shapes or lengths). -/
theorem c2_is_valid_characterization (f : Field) (c : Comb) :
    Field.is_valid f c =
      match f.prev_comb with
      | none => true
      | some prev =>
        SuitBinder.is_valid f.binder c &&
          specGreater (if f.is_rev then cmp_rank_reversely else cmp_rank) c prev := by
  unfold Field.is_valid
  cases f.prev_comb with
  | none => rfl
  | some prev => simp only [is_greater_eq_specGreater]

/-- C6: from a fresh four-player tracker, any mix of three front and back
finish calls empties the active list, the front-finished players (the
auto-finished survivor included) fill the finish slots from the lowest index
in finishing order, the back-finished players fill them from the highest index
inward, the two never colliding, and every one of the four players occupies
exactly one slot. -/
theorem c6_finish_order_complete :
    ∀ (s : Fin 4) (b1 b2 b3 : Bool),
      (runFB (Indexer.new 4 s.val) [b1, b2, b3]).1.active_players = [] ∧
      (runFB (Indexer.new 4 s.val) [b1, b2, b3]).1.player_rank =
        (runFB (Indexer.new 4 s.val) [b1, b2, b3]).2.1.map some ++
          ((runFB (Indexer.new 4 s.val) [b1, b2, b3]).2.2.reverse.map some) ∧
      (runFB (Indexer.new 4 s.val) [b1, b2, b3]).2.1.length +
        (runFB (Indexer.new 4 s.val) [b1, b2, b3]).2.2.length = 4 ∧
      (∀ p : Fin 4,
        ((runFB (Indexer.new 4 s.val) [b1, b2, b3]).2.1 ++
          (runFB (Indexer.new 4 s.val) [b1, b2, b3]).2.2).count p.val = 1) := by
  decide

/-- C7 counterexample: with a pending two-suit pattern, a normal Single whose
suit matches only the first pending suit engages the lock in the code, while
the claim as stated would merely replace the pending pattern; the two
transitions disagree, and in particular the code activates the lock while the
claimed transition does not. -/
theorem c7_counterexample :
    SuitBinder.push { suits := none, prev_suits := some [Suit.Heart, Suit.Club] }
        (Comb.Single (Card.Normal Suit.Heart Rank.Three)) ≠
      some (specPush { suits := none, prev_suits := some [Suit.Heart, Suit.Club] }
        (Comb.Single (Card.Normal Suit.Heart Rank.Three))) ∧
    (SuitBinder.push { suits := none, prev_suits := some [Suit.Heart, Suit.Club] }
        (Comb.Single (Card.Normal Suit.Heart Rank.Three))).map SuitBinder.is_activate =
      some true ∧
    (specPush { suits := none, prev_suits := some [Suit.Heart, Suit.Club] }
        (Comb.Single (Card.Normal Suit.Heart Rank.Three))).is_activate = false := by
  decide

theorem push_isSome (b : SuitBinder) (c : Comb) (hne : b.prev_suits ≠ some []) :
    (SuitBinder.push b c).isSome = true := by
  cases c with
  | Single card =>
    cases card with
    | Joker => rfl
    | Normal s r =>
      simp only [SuitBinder.push]
      cases hp : b.prev_suits with
      | none => rfl
      | some suits =>
        cases suits with
        | nil => exact absurd hp hne
        | cons s0 rest => by_cases hs : s = s0 <;> simp [List.head?, hs]
  | Multi cards =>
    simp only [SuitBinder.push]
    by_cases hj : Card.Joker ∈ cards
    · simp [hj]
    · cases hp : b.prev_suits with
      | none => simp [hj]
      | some suits => by_cases hs : suits = get_suits cards <;> simp [hj, hs]
  | Seq cards =>
    simp only [SuitBinder.push]
    by_cases hj : Card.Joker ∈ cards
    · simp [hj]
    · cases hp : b.prev_suits with
      | none => simp [hj]
      | some suits => by_cases hs : suits = get_suits cards <;> simp [hj, hs]

/-- C7 amended: the suit lock transition of the code, for every state whose
pending pattern is not the empty list: a Group or Run containing a Joker
clears the pending pattern; a jokerless Group or Run promotes the pending
pattern to active exactly when its suit sequence equals it, otherwise replaces
it; a normal Single promotes the entire pending pattern whenever its suit
equals the first pending suit (even when that pattern is longer than one
suit), otherwise replaces the pending pattern with its single suit; a Single
Joker clears the pending pattern.  Consequently two consecutive same-suit
Singles engage the lock, and clearing (eight play or full pass-around) drops
both patterns so that acceptance reverts to always-true. -/
theorem c7_push_amended (b : SuitBinder) (c c2 : Comb) (s : Suit) (r1 r2 : Rank)
    (hne : b.prev_suits ≠ some []) :
    SuitBinder.push b c = some (specPushAmended b c) ∧
    ((SuitBinder.push SuitBinder.new (Comb.Single (Card.Normal s r1))).bind
      fun b1 => SuitBinder.push b1 (Comb.Single (Card.Normal s r2))) =
      some { suits := some [s], prev_suits := none } ∧
    (SuitBinder.clear b).suits = none ∧
    (SuitBinder.clear b).prev_suits = none ∧
    SuitBinder.is_valid (SuitBinder.clear b) c2 = true := by
  refine ⟨?_, ?_, rfl, rfl, rfl⟩
  · cases c with
    | Single card =>
      cases card with
      | Joker => rfl
      | Normal s' r' =>
        simp only [SuitBinder.push, specPushAmended]
        cases hp : b.prev_suits with
        | none => rfl
        | some suits =>
          cases suits with
          | nil => exact absurd hp hne
          | cons s0 rest =>
            by_cases hs : s' = s0
            · subst hs
              simp [List.head?]
            · simp [List.head?, hs, Ne.symm hs]
    | Multi cards =>
      simp only [SuitBinder.push, specPushAmended]
      by_cases hj : Card.Joker ∈ cards
      · simp [hj]
      · cases hp : b.prev_suits with
        | none => simp [hj]
        | some suits => by_cases hs : suits = get_suits cards <;> simp [hj, hs]
    | Seq cards =>
      simp only [SuitBinder.push, specPushAmended]
      by_cases hj : Card.Joker ∈ cards
      · simp [hj]
      · cases hp : b.prev_suits with
        | none => simp [hj]
        | some suits => by_cases hs : suits = get_suits cards <;> simp [hj, hs]
  · simp [SuitBinder.new, SuitBinder.push, List.head?]

/-- C7 amended witness at a concrete state and combinations. -/
theorem c7_push_amended_witness :
    ((SuitBinder.new.prev_suits ≠ some []) ∧
      SuitBinder.push SuitBinder.new (Comb.Single (Card.Normal Suit.Diamond Rank.Five)) =
        some (specPushAmended SuitBinder.new
          (Comb.Single (Card.Normal Suit.Diamond Rank.Five)))) := by
  refine ⟨by decide, ?_⟩
  exact (c7_push_amended SuitBinder.new
    (Comb.Single (Card.Normal Suit.Diamond Rank.Five)) (Comb.Single Card.Joker)
    Suit.Diamond Rank.Four Rank.Six (by decide)).1

/-- C9 counterexample: a pair of Jokers is classified as a Group, not
rejected (is_same_ranks is vacuously true when there is no non-joker card). -/
theorem c9_counterexample :
    Comb.tryFrom [Card.Joker, Card.Joker] =
      some (some (Comb.Multi [Card.Joker, Card.Joker])) ∧
    Comb.tryFrom [Card.Joker, Card.Joker] ≠ some none := by
  decide

theorem filterMap_cardRank_all_joker :
    ∀ (cards : List Card), (∀ c ∈ cards, c = Card.Joker) →
      cards.filterMap cardRank = []
  | [], _ => rfl
  | c :: cs, h => by
    have hc : c = Card.Joker := h c (List.mem_cons_self c cs)
    subst hc
    simpa [cardRank] using
      filterMap_cardRank_all_joker cs fun x hx => h x (List.mem_cons_of_mem _ hx)

/-- C9 amended: an input of two or more cards consisting only of Jokers is
accepted by the classifier as a Group of those cards (the all-equal-ranks
check is vacuously true), rather than rejected. -/
theorem c9_amended (cards : List Card) (h2 : 2 ≤ cards.length)
    (hall : ∀ c ∈ cards, c = Card.Joker) :
    Comb.tryFrom cards = some (some (Comb.Multi cards)) := by
  unfold Comb.tryFrom
  rw [if_neg (by unfold MIN_MULTI; omega), if_pos]
  unfold is_same_ranks
  rw [filterMap_cardRank_all_joker cards hall]
  rfl

/-- C9 amended witness: three Jokers classify as a Group. -/
theorem c9_amended_witness :
    (2 ≤ ([Card.Joker, Card.Joker, Card.Joker] : List Card).length) ∧
      Comb.tryFrom [Card.Joker, Card.Joker, Card.Joker] =
        some (some (Comb.Multi [Card.Joker, Card.Joker, Card.Joker])) :=
  ⟨by decide, c9_amended [Card.Joker, Card.Joker, Card.Joker] (by decide) (by decide)⟩

/-- C10 counterexample: the pass branch is not total under countdown at least
one alone.  Through the public API, a finishing play on a fresh two-player
field leaves the counter at one with an emptied active list; the next pass
survives the decrement but panics (modelled none) at the remainder-by-zero of
the cursor advance over the empty active list. -/
theorem c10_counterexample :
    (Field.put (Field.new 2 0) (some (Comb.Single (Card.Normal Suit.Club Rank.Three))) 0).isSome
        = true ∧
    ((Field.put (Field.new 2 0) (some (Comb.Single (Card.Normal Suit.Club Rank.Three))) 0).map
        fun p => decide (1 ≤ p.1.pass_counter) && decide (p.1.indexer.active_players = []))
      = some true ∧
    ((Field.put (Field.new 2 0) (some (Comb.Single (Card.Normal Suit.Club Rank.Three))) 0).bind
        fun p => Field.put p.1 none 3) = none := by
  decide

/-- C10 amended: a pass on a freshly constructed field hits the unguarded
usize decrement of the pass counter at zero and panics (modelled as none)
instead of clearing the table or doing nothing; whenever the counter is at
least one AND the active-player list is nonempty the pass branch completes
normally (with an empty active list the final cursor advance panics with a
remainder by zero even when the counter is positive). -/
theorem c10_pass_countdown (n s hands hands2 : Nat) (f : Field)
    (hc : 1 ≤ f.pass_counter) (ha : f.indexer.active_players ≠ []) :
    Field.put (Field.new n s) none hands = none ∧
    (Field.put f none hands2).isSome = true := by
  constructor
  · rfl
  · unfold Field.put
    rw [if_neg (by omega)]
    unfold Indexer.next
    rw [if_neg (by simpa using ha)]
    rfl

theorem get_rank_eq_head_filterMap :
    ∀ cards : List Card, get_rank cards = (cards.filterMap cardRank).head?
  | [] => rfl
  | c :: cs => by
    cases c with
    | Normal s r => rfl
    | Joker => simpa [get_rank, cardRank] using get_rank_eq_head_filterMap cs

theorem contains_eight_eq_spec (c : Comb) : contains_eight c = specIsEight c := by
  cases c with
  | Single card =>
    cases card with
    | Joker => rfl
    | Normal s r => cases r <;> rfl
  | Multi cards =>
    simp only [contains_eight, specIsEight, get_rank_eq_head_filterMap]
    cases (cards.filterMap cardRank).head? with
    | none => rfl
    | some r => rfl
  | Seq cards => rfl

/-- C8: every accepted play toggles the power-reversal flag and reports the
REV flag exactly when the candidate is a Group of length at least four (jokers
counted in the length), whatever the remaining hand size, the eight status or
the finish status of the play; a Single or a Run never reverses. -/
theorem c8_rev_toggle (f : Field) (c : Comb) (hands : Nat)
    (hne : f.binder.prev_suits ≠ some [])
    (hidx : f.indexer.idx < f.indexer.active_players.length) :
    (∃ f2 fl, Field.put f (some c) hands = some (f2, fl) ∧
      fl.rev = is_rev_comb c ∧
      f2.is_rev = (if is_rev_comb c then !f.is_rev else f.is_rev)) ∧
    (∀ cards, is_rev_comb (Comb.Multi cards) = decide (4 ≤ cards.length)) ∧
    (∀ card, is_rev_comb (Comb.Single card) = false) ∧
    (∀ cards, is_rev_comb (Comb.Seq cards) = false) := by
  refine ⟨?_, fun cards => rfl, fun card => rfl, fun cards => rfl⟩
  have hnext : Indexer.next f.indexer =
      some { f.indexer with idx := (f.indexer.idx + 1) % f.indexer.active_players.length } := by
    unfold Indexer.next
    rw [if_neg (by omega)]
  by_cases hh : 0 < hands
  · by_cases he : contains_eight c
    · by_cases hrev : is_rev_comb c <;>
        (simp [Field.put, Flags.empty, hh, he, hrev] <;>
          exact ⟨_, _, ⟨rfl, rfl⟩, rfl, rfl⟩)
    · by_cases hact : SuitBinder.is_activate f.binder
      · by_cases hrev : is_rev_comb c <;>
          (simp [Field.put, Flags.empty, hh, he, hact, hrev, hnext] <;>
            exact ⟨_, _, ⟨rfl, rfl⟩, rfl, rfl⟩)
      · obtain ⟨b2, hb2⟩ := Option.isSome_iff_exists.mp (push_isSome f.binder c hne)
        by_cases hrev : is_rev_comb c <;>
          by_cases hba : SuitBinder.is_activate b2 <;>
            (simp [Field.put, Flags.empty, hh, he, hact, hrev, hnext, hb2, hba] <;>
              exact ⟨_, _, ⟨rfl, rfl⟩, rfl, rfl⟩)
  · by_cases hsp : contains_especial_card c f.is_rev <;>
      by_cases he : contains_eight c
    · by_cases hrev : is_rev_comb c <;>
        (simp [Field.put, Flags.empty, hh, hsp, he, hrev] <;>
          exact ⟨_, _, ⟨rfl, rfl⟩, rfl, rfl⟩)
    · by_cases hact : SuitBinder.is_activate f.binder
      · by_cases hrev : is_rev_comb c <;>
          (simp [Field.put, Flags.empty, hh, hsp, he, hact, hrev] <;>
            exact ⟨_, _, ⟨rfl, rfl⟩, rfl, rfl⟩)
      · obtain ⟨b2, hb2⟩ := Option.isSome_iff_exists.mp (push_isSome f.binder c hne)
        by_cases hrev : is_rev_comb c <;>
          by_cases hba : SuitBinder.is_activate b2 <;>
            (simp [Field.put, Flags.empty, hh, hsp, he, hact, hrev, hb2, hba] <;>
              exact ⟨_, _, ⟨rfl, rfl⟩, rfl, rfl⟩)
    · by_cases hrev : is_rev_comb c <;>
        (simp [Field.put, Flags.empty, hh, hsp, he, hrev] <;>
          exact ⟨_, _, ⟨rfl, rfl⟩, rfl, rfl⟩)
    · by_cases hact : SuitBinder.is_activate f.binder
      · by_cases hrev : is_rev_comb c <;>
          (simp [Field.put, Flags.empty, hh, hsp, he, hact, hrev] <;>
            exact ⟨_, _, ⟨rfl, rfl⟩, rfl, rfl⟩)
      · obtain ⟨b2, hb2⟩ := Option.isSome_iff_exists.mp (push_isSome f.binder c hne)
        by_cases hrev : is_rev_comb c <;>
          by_cases hba : SuitBinder.is_activate b2 <;>
            (simp [Field.put, Flags.empty, hh, hsp, he, hact, hrev, hb2, hba] <;>
              exact ⟨_, _, ⟨rfl, rfl⟩, rfl, rfl⟩)

/-- C8 witness: a four-card Group played from a fresh field with cards
remaining reverses power. -/
theorem c8_rev_toggle_witness :
    ((Field.new 4 0).binder.prev_suits ≠ some [] ∧
      (Field.new 4 0).indexer.idx < (Field.new 4 0).indexer.active_players.length) ∧
    ∃ f2 fl,
      Field.put (Field.new 4 0)
        (some (Comb.Multi [Card.Normal Suit.Club Rank.Ten, Card.Normal Suit.Heart Rank.Ten,
          Card.Normal Suit.Spade Rank.Ten, Card.Joker])) 2 = some (f2, fl) ∧
      fl.rev = is_rev_comb (Comb.Multi [Card.Normal Suit.Club Rank.Ten,
        Card.Normal Suit.Heart Rank.Ten, Card.Normal Suit.Spade Rank.Ten, Card.Joker]) ∧
      f2.is_rev = (if is_rev_comb (Comb.Multi [Card.Normal Suit.Club Rank.Ten,
          Card.Normal Suit.Heart Rank.Ten, Card.Normal Suit.Spade Rank.Ten, Card.Joker])
        then !(Field.new 4 0).is_rev else (Field.new 4 0).is_rev) :=
  ⟨⟨by decide, by decide⟩,
    (c8_rev_toggle (Field.new 4 0)
      (Comb.Multi [Card.Normal Suit.Club Rank.Ten, Card.Normal Suit.Heart Rank.Ten,
        Card.Normal Suit.Spade Rank.Ten, Card.Joker]) 2 (by decide) (by decide)).1⟩

/-- C4: an accepted eight-play (a Single Eight, or a Group whose
representative rank is Eight) with cards remaining reports the EIGHT flag,
clears both the active and the pending suit-lock patterns, clears the
previous-combination memory, and leaves the turn cursor untouched so that the
current player is unchanged; a Run is never an eight-play. -/
theorem c4_eight_play (f : Field) (c : Comb) (hands : Nat)
    (hidx : f.indexer.idx < f.indexer.active_players.length)
    (hhands : 0 < hands) (height : specIsEight c = true) :
    (∃ f2 fl, Field.put f (some c) hands = some (f2, fl) ∧
      fl.eight = true ∧
      f2.binder.suits = none ∧
      f2.binder.prev_suits = none ∧
      f2.prev_comb = none ∧
      f2.indexer = f.indexer ∧
      f2.indexer.get_idx = f.indexer.get_idx) ∧
    (∀ cards, specIsEight (Comb.Seq cards) = false) ∧
    (∀ cards, contains_eight (Comb.Seq cards) = false) := by
  refine ⟨?_, fun cards => rfl, fun cards => rfl⟩
  have he : contains_eight c = true := by rw [contains_eight_eq_spec]; exact height
  by_cases hrev : is_rev_comb c <;>
    (simp [Field.put, Flags.empty, SuitBinder.clear, hhands, he, hrev] <;>
      exact ⟨_, _, ⟨rfl, rfl⟩, rfl, rfl, rfl, rfl, rfl, rfl⟩)

/-- C4 witness: a Single Eight from a fresh field with cards remaining. -/
theorem c4_eight_play_witness :
    ((Field.new 4 0).indexer.idx < (Field.new 4 0).indexer.active_players.length ∧
      (0 : Nat) < 3 ∧ specIsEight (Comb.Single (Card.Normal Suit.Club Rank.Eight)) = true) ∧
    ∃ f2 fl,
      Field.put (Field.new 4 0) (some (Comb.Single (Card.Normal Suit.Club Rank.Eight))) 3 =
        some (f2, fl) ∧
      fl.eight = true ∧
      f2.binder.suits = none ∧
      f2.binder.prev_suits = none ∧
      f2.prev_comb = none ∧
      f2.indexer = (Field.new 4 0).indexer ∧
      f2.indexer.get_idx = (Field.new 4 0).indexer.get_idx :=
  ⟨⟨by decide, by decide, by decide⟩,
    (c4_eight_play (Field.new 4 0) (Comb.Single (Card.Normal Suit.Club Rank.Eight)) 3
      (by decide) (by decide) (by decide)).1⟩

theorem setFirstNone_sets :
    ∀ (l : List (Option Nat)) (p : Nat), none ∈ l →
      ∃ j, isFirstNoneIdx l j ∧ (setFirstNone l p).get? j = some (some p)
  | [], _, h => absurd h (List.not_mem_nil none)
  | none :: rest, p, _ =>
    ⟨0, ⟨rfl, fun k hk => absurd hk (Nat.not_lt_zero k)⟩, rfl⟩
  | some q :: rest, p, h => by
    have hr : (none : Option Nat) ∈ rest := by
      rcases List.mem_cons.mp h with h1 | h2
      · exact absurd h1.symm (by simp)
      · exact h2
    obtain ⟨j, ⟨hj1, hj2⟩, hj3⟩ := setFirstNone_sets rest p hr
    refine ⟨j + 1, ⟨by simpa using hj1, ?_⟩, by simpa [setFirstNone] using hj3⟩
    intro k hk
    cases k with
    | zero => simp
    | succ k' => simpa using hj2 k' (by omega)

theorem setLastNone_sets :
    ∀ (l : List (Option Nat)) (p : Nat), none ∈ l →
      ∃ j, isLastNoneIdx l j ∧ (setLastNone l p).get? j = some (some p)
  | [], _, h => absurd h (List.not_mem_nil none)
  | x :: rest, p, h => by
    by_cases hr : (none : Option Nat) ∈ rest
    · obtain ⟨j, ⟨hj1, hj2⟩, hj3⟩ := setLastNone_sets rest p hr
      refine ⟨j + 1, ⟨by simpa using hj1, ?_⟩, ?_⟩
      · intro k hk
        cases k with
        | zero => omega
        | succ k' => simpa using hj2 k' (by omega)
      · simpa [setLastNone, hr] using hj3
    · have hx : x = none := by
        rcases List.mem_cons.mp h with h1 | h2
        · exact h1.symm
        · exact absurd h2 hr
      subst hx
      refine ⟨0, ⟨rfl, ?_⟩, by simp [setLastNone, hr]⟩
      intro k hk
      cases k with
      | zero => omega
      | succ k' =>
        intro hmem
        exact hr (List.get?_mem (by simpa using hmem))

theorem setFirstNone_preserves :
    ∀ (l : List (Option Nat)) (p v : Nat) (j : Nat),
      l.get? j = some (some v) → (setFirstNone l p).get? j = some (some v)
  | [], _, _, j, h => by simp at h
  | none :: rest, p, v, j, h => by
    cases j with
    | zero => simp at h
    | succ j' => simpa [setFirstNone] using h
  | some q :: rest, p, v, j, h => by
    cases j with
    | zero => simpa [setFirstNone] using h
    | succ j' =>
      simpa [setFirstNone] using setFirstNone_preserves rest p v j' (by simpa using h)

theorem set_rank_back_writes_last (ix : Indexer)
    (hnone : (none : Option Nat) ∈ ix.player_rank) :
    ∃ j, isLastNoneIdx ix.player_rank j ∧
      (Indexer.set_rank_back ix).player_rank.get? j =
        some (some (ix.active_players.getD ix.idx 0)) := by
  obtain ⟨j, hj, hset⟩ :=
    setLastNone_sets ix.player_rank (ix.active_players.getD ix.idx 0) hnone
  refine ⟨j, hj, ?_⟩
  simp only [Indexer.set_rank_back]
  by_cases hl : (ix.active_players.eraseIdx ix.idx).length = 1
  · simp only [hl, if_pos]
    exact setFirstNone_preserves _ _ _ _ hset
  · simp only [hl, if_neg, if_false]
    exact hset

theorem set_rank_front_writes_first (ix : Indexer)
    (hnone : (none : Option Nat) ∈ ix.player_rank) :
    ∃ j, isFirstNoneIdx ix.player_rank j ∧
      (Indexer.set_rank_front ix).player_rank.get? j =
        some (some (ix.active_players.getD ix.idx 0)) := by
  obtain ⟨j, hj, hset⟩ :=
    setFirstNone_sets ix.player_rank (ix.active_players.getD ix.idx 0) hnone
  refine ⟨j, hj, ?_⟩
  simp only [Indexer.set_rank_front]
  by_cases hl : (ix.active_players.eraseIdx ix.idx).length = 1
  · simp only [hl, if_pos]
    exact setFirstNone_preserves _ _ _ _ hset
  · simp only [hl, if_neg, if_false]
    exact hset

theorem contains_especial_eq_forbidden (c : Comb) (rev : Bool) :
    contains_especial_card c rev = forbiddenFinish c rev := by
  cases c with
  | Single card =>
    cases card with
    | Joker => cases rev <;> rfl
    | Normal s r => cases rev <;> cases r <;> rfl
  | Multi cards =>
    simp only [contains_especial_card, forbiddenFinish, get_rank_eq_head_filterMap]
    cases (cards.filterMap cardRank).head? with
    | none => cases rev <;> rfl
    | some r => cases rev <;> cases r <;> rfl
  | Seq cards => cases rev <;> rfl

theorem put_finish_shape (f : Field) (c : Comb)
    (hne : f.binder.prev_suits ≠ some []) :
    ∃ f2 fl, Field.put f (some c) 0 = some (f2, fl) ∧
      fl.lose = contains_especial_card c f.is_rev ∧
      fl.out = !contains_especial_card c f.is_rev ∧
      f2.indexer = (if contains_especial_card c f.is_rev then Indexer.set_rank_back f.indexer
                    else Indexer.set_rank_front f.indexer) := by
  by_cases hsp : contains_especial_card c f.is_rev <;>
    by_cases he : contains_eight c
  · by_cases hrev : is_rev_comb c <;>
      (simp [Field.put, Flags.empty, hsp, he, hrev] <;>
        exact ⟨_, _, ⟨rfl, rfl⟩, rfl, rfl, rfl⟩)
  · by_cases hact : SuitBinder.is_activate f.binder
    · by_cases hrev : is_rev_comb c <;>
        (simp [Field.put, Flags.empty, hsp, he, hact, hrev] <;>
          exact ⟨_, _, ⟨rfl, rfl⟩, rfl, rfl, rfl⟩)
    · obtain ⟨b2, hb2⟩ := Option.isSome_iff_exists.mp (push_isSome f.binder c hne)
      by_cases hrev : is_rev_comb c <;>
        by_cases hba : SuitBinder.is_activate b2 <;>
          (simp [Field.put, Flags.empty, hsp, he, hact, hrev, hb2, hba] <;>
            exact ⟨_, _, ⟨rfl, rfl⟩, rfl, rfl, rfl⟩)
  · by_cases hrev : is_rev_comb c <;>
      (simp [Field.put, Flags.empty, hsp, he, hrev] <;>
        exact ⟨_, _, ⟨rfl, rfl⟩, rfl, rfl, rfl⟩)
  · by_cases hact : SuitBinder.is_activate f.binder
    · by_cases hrev : is_rev_comb c <;>
        (simp [Field.put, Flags.empty, hsp, he, hact, hrev] <;>
          exact ⟨_, _, ⟨rfl, rfl⟩, rfl, rfl, rfl⟩)
    · obtain ⟨b2, hb2⟩ := Option.isSome_iff_exists.mp (push_isSome f.binder c hne)
      by_cases hrev : is_rev_comb c <;>
        by_cases hba : SuitBinder.is_activate b2 <;>
          (simp [Field.put, Flags.empty, hsp, he, hact, hrev, hb2, hba] <;>
            exact ⟨_, _, ⟨rfl, rfl⟩, rfl, rfl, rfl⟩)

/-- C3: a finishing play (remaining hand size zero) reports LOSE and writes
the current player into the last unfilled finish slot exactly when the
candidate is forbidden (a Single Joker, a Single normal card of rank Eight or
of Two without reversal and Three under it, or a Group whose representative
rank lies in that set); a finishing Run is never forbidden; every other
finishing play reports OUT and writes the player into the first unfilled
finish slot. -/
theorem c3_forbidden_finish (f : Field) (c : Comb)
    (hne : f.binder.prev_suits ≠ some [])
    (hidx : f.indexer.idx < f.indexer.active_players.length)
    (hnone : (none : Option Nat) ∈ f.indexer.player_rank) :
    (∃ f2 fl, Field.put f (some c) 0 = some (f2, fl) ∧
      fl.lose = forbiddenFinish c f.is_rev ∧
      fl.out = !forbiddenFinish c f.is_rev ∧
      (if forbiddenFinish c f.is_rev then
        ∃ j, isLastNoneIdx f.indexer.player_rank j ∧
          f2.indexer.player_rank.get? j =
            some (some (f.indexer.active_players.getD f.indexer.idx 0))
       else
        ∃ j, isFirstNoneIdx f.indexer.player_rank j ∧
          f2.indexer.player_rank.get? j =
            some (some (f.indexer.active_players.getD f.indexer.idx 0)))) ∧
    (∀ cards rev, forbiddenFinish (Comb.Seq cards) rev = false) := by
  refine ⟨?_, fun cards rev => rfl⟩
  obtain ⟨f2, fl, hput, hlose, hout, hix⟩ := put_finish_shape f c hne
  refine ⟨f2, fl, hput, ?_, ?_, ?_⟩
  · rw [hlose, contains_especial_eq_forbidden]
  · rw [hout, contains_especial_eq_forbidden]
  · rw [← contains_especial_eq_forbidden]
    by_cases hsp : contains_especial_card c f.is_rev
    · rw [if_pos hsp]
      rw [hsp, if_pos rfl] at hix
      rw [hix]
      exact set_rank_back_writes_last f.indexer hnone
    · rw [if_neg hsp]
      rw [Bool.of_not_eq_true hsp, if_neg (by simp)] at hix
      rw [hix]
      exact set_rank_front_writes_first f.indexer hnone

/-- C3 witness: a Single Two finishing hand on a fresh field without reversal. -/
theorem c3_forbidden_finish_witness :
    ((Field.new 4 0).binder.prev_suits ≠ some [] ∧
      (Field.new 4 0).indexer.idx < (Field.new 4 0).indexer.active_players.length ∧
      (none : Option Nat) ∈ (Field.new 4 0).indexer.player_rank) ∧
    (∃ f2 fl,
      Field.put (Field.new 4 0) (some (Comb.Single (Card.Normal Suit.Spade Rank.Two))) 0 =
        some (f2, fl) ∧
      fl.lose = forbiddenFinish (Comb.Single (Card.Normal Suit.Spade Rank.Two))
        (Field.new 4 0).is_rev ∧
      fl.out = !forbiddenFinish (Comb.Single (Card.Normal Suit.Spade Rank.Two))
        (Field.new 4 0).is_rev ∧
      (if forbiddenFinish (Comb.Single (Card.Normal Suit.Spade Rank.Two))
          (Field.new 4 0).is_rev then
        ∃ j, isLastNoneIdx (Field.new 4 0).indexer.player_rank j ∧
          f2.indexer.player_rank.get? j =
            some (some ((Field.new 4 0).indexer.active_players.getD
              (Field.new 4 0).indexer.idx 0))
       else
        ∃ j, isFirstNoneIdx (Field.new 4 0).indexer.player_rank j ∧
          f2.indexer.player_rank.get? j =
            some (some ((Field.new 4 0).indexer.active_players.getD
              (Field.new 4 0).indexer.idx 0)))) :=
  ⟨⟨by decide, by decide, by decide⟩,
    (c3_forbidden_finish (Field.new 4 0) (Comb.Single (Card.Normal Suit.Spade Rank.Two))
      (by decide) (by decide) (by decide)).1⟩

theorem jokerIdx_none : ∀ (cards : List Card), Card.Joker ∉ cards → jokerIdx cards = none
  | [], _ => rfl
  | c :: cs, h => by
    have hc : ¬((c == Card.Joker) = true) := by
      simp only [beq_iff_eq]
      intro hcc
      exact h (hcc ▸ List.mem_cons_self c cs)
    simp only [jokerIdx, if_neg hc,
      jokerIdx_none cs fun hm => h (List.mem_cons_of_mem c hm), Option.map_none']

theorem jokerIdx_append (r : List Card) :
    ∀ (l : List Card), Card.Joker ∉ l →
      jokerIdx (l ++ Card.Joker :: r) = some l.length
  | [], _ => rfl
  | c :: cs, h => by
    have hc : ¬((c == Card.Joker) = true) := by
      simp only [beq_iff_eq]
      intro hcc
      exact h (hcc ▸ List.mem_cons_self c cs)
    simp only [List.cons_append, jokerIdx, if_neg hc, List.append_eq,
      jokerIdx_append r cs fun hm => h (List.mem_cons_of_mem c hm), Option.map_some',
      List.length_cons]

theorem count_one_split (cards : List Card) (h : cards.count Card.Joker = 1) :
    ∃ l r, cards = l ++ Card.Joker :: r ∧ Card.Joker ∉ l ∧ Card.Joker ∉ r := by
  have hmem : Card.Joker ∈ cards := by
    by_contra hno
    rw [List.count_eq_zero.mpr hno] at h
    omega
  obtain ⟨l, r, rfl⟩ := List.append_of_mem hmem
  rw [List.count_append, List.count_cons_self] at h
  exact ⟨l, r, rfl, List.count_eq_zero.mp (by omega), List.count_eq_zero.mp (by omega)⟩

theorem map_cardNum_no_joker :
    ∀ (l : List Card), Card.Joker ∉ l →
      l.map cardNum = (l.filterMap cardNum).map some
  | [], _ => rfl
  | c :: cs, h => by
    cases c with
    | Joker => exact absurd (List.mem_cons_self _ _) h
    | Normal s r =>
      simp only [List.map_cons, List.filterMap_cons, cardNum]
      exact congrArg _ (map_cardNum_no_joker cs fun hm => h (List.mem_cons_of_mem _ hm))

theorem length_filterMap_cardNum (l : List Card) (hl : Card.Joker ∉ l) :
    (l.filterMap cardNum).length = l.length := by
  have := congrArg List.length (map_cardNum_no_joker l hl)
  simpa using this.symm

theorem getNum_left (ln rn : List Int) (i : Nat) (h : i < ln.length) :
    getNum (ln.map some ++ none :: rn.map some) i = ln.get? i := by
  unfold getNum
  rw [List.get?_append (by simpa using h), List.get?_map]
  cases hg : ln.get? i with
  | none => exact absurd (List.get?_eq_none.mp hg) (by omega)
  | some v => rfl

theorem getNum_right (ln rn : List Int) (j : Nat) :
    getNum (ln.map some ++ none :: rn.map some) (ln.length + 1 + j) = rn.get? j := by
  unfold getNum
  rw [List.get?_append_right (by simp; omega)]
  have : ln.length + 1 + j - (ln.map some).length = j + 1 := by simp; omega
  rw [this]
  simp only [List.get?_cons_succ, List.get?_map]
  cases hg : rn.get? j with
  | none => rfl
  | some v => rfl

theorem set_append_len {α : Type} :
    ∀ (A : List α) (b c : α) (B : List α), (A ++ b :: B).set A.length c = A ++ c :: B
  | [], _, _, _ => rfl
  | a :: A, b, c, B => by
    simp only [List.cons_append, List.length_cons, List.set_cons_succ]
    exact congrArg _ (set_append_len A b c B)

theorem set_mid (ln rn : List Int) (v : Int) :
    (ln.map some ++ none :: rn.map some).set ln.length (some v) =
      ln.map some ++ some v :: rn.map some := by
  have := set_append_len (ln.map some) (none : Option Int) (some v) (rn.map some)
  simpa using this

theorem filterMap_id_shape (ln rn : List Int) (v : Int) :
    (ln.map some ++ some v :: rn.map some).filterMap id = ln ++ v :: rn := by
  simp [List.filterMap_append, List.filterMap_map, Function.comp_def]

theorem get_last_of_reverse (ln : List Int) (p1 : Int) (t : List Int)
    (h : ln.reverse = p1 :: t) : ln.get? (ln.length - 1) = some p1 := by
  have hlen : 0 < ln.length := by
    have := congrArg List.length h
    simp at this
    omega
  have h0 : ln.reverse.get? 0 = some p1 := by rw [h]; rfl
  rw [List.get?_reverse (by omega)] at h0
  simpa using h0

theorem get_last2_of_reverse (ln : List Int) (p1 p2 : Int) (t : List Int)
    (h : ln.reverse = p1 :: p2 :: t) : ln.get? (ln.length - 2) = some p2 := by
  have hlen : 2 ≤ ln.length := by
    have := congrArg List.length h
    simp at this
    omega
  have h1 : ln.reverse.get? 1 = some p2 := by rw [h]; rfl
  rw [List.get?_reverse (by omega), show ln.length - 1 - 1 = ln.length - 2 by omega] at h1
  exact h1

theorem is_seq_one_joker (l r : List Card) (hl : Card.Joker ∉ l) (hr : Card.Joker ∉ r)
    (hlen : 3 ≤ l.length + 1 + r.length) :
    is_seq (l ++ Card.Joker :: r) =
      some (diffsOk (jokerSubstSpec (l.filterMap cardNum) (r.filterMap cardNum))) := by
  have hlenl := length_filterMap_cardNum l hl
  have hlenr := length_filterMap_cardNum r hr
  have hlen3 : ¬((l ++ Card.Joker :: r).length < MIN_SEQ) := by
    simp only [List.length_append, List.length_cons, MIN_SEQ]
    omega
  have hnums : (l ++ Card.Joker :: r).map cardNum =
      (l.filterMap cardNum).map some ++ none :: (r.filterMap cardNum).map some := by
    rw [List.map_append, map_cardNum_no_joker l hl, List.map_cons,
      map_cardNum_no_joker r hr]
    rfl
  by_cases hl0 : l = []
  · subst hl0
    have hr2 : 2 ≤ (r.filterMap cardNum).length := by
      rw [hlenr]
      simp only [List.length_nil] at hlen
      omega
    rcases hrn : r.filterMap cardNum with _ | ⟨n1, rn'⟩
    · rw [hrn] at hr2
      simp at hr2
    rcases hrn' : rn' with _ | ⟨n2, rt⟩
    · rw [hrn, hrn'] at hr2
      simp at hr2
    rw [hrn'] at hrn
    rw [hrn] at hnums
    have hlen3a : ¬(r.length + 1 < MIN_SEQ) := by
      simp only [MIN_SEQ]
      simp only [List.length_nil] at hlen
      omega
    simp only [List.nil_append] at hnums hlen3 ⊢
    simp [is_seq, hlen3, hlen3a, jokerIdx, hnums, getNum, jokerSubstSpec, hrn,
      List.filterMap_map, Function.comp_def]
  · by_cases hr0 : r = []
    · subst hr0
      have hl2 : 2 ≤ (l.filterMap cardNum).length := by
        rw [hlenl]
        simp only [List.length_nil] at hlen
        omega
      rcases hrev : (l.filterMap cardNum).reverse with _ | ⟨p1, lt'⟩
      · exfalso
        have h0 : (l.filterMap cardNum).length = 0 := by
          rw [← List.length_reverse, hrev]
          rfl
        omega
      rcases hrev' : lt' with _ | ⟨p2, t⟩
      · exfalso
        rw [hrev'] at hrev
        have h0 : (l.filterMap cardNum).length = 1 := by
          rw [← List.length_reverse, hrev]
          rfl
        omega
      rw [hrev'] at hrev
      have hg1 : (l.filterMap cardNum).get? (l.length - 1) = some p1 := by
        rw [← hlenl]
        exact get_last_of_reverse _ _ _ hrev
      have hg2 : (l.filterMap cardNum).get? (l.length - 2) = some p2 := by
        rw [← hlenl]
        exact get_last2_of_reverse _ _ _ _ hrev
      have hx := (getNum_left (l.filterMap cardNum) [] (l.length - 2) (by omega)).trans hg2
      have hy := (getNum_left (l.filterMap cardNum) [] (l.length - 1) (by omega)).trans hg1
      have hc0 : (l.length == 0) = false := by
        simp only [beq_eq_false_iff_ne, ne_eq]
        intro hz
        exact hl0 (List.length_eq_zero.mp hz)
      have hset := set_mid (l.filterMap cardNum) [] (2 * p1 - p2)
      rw [hlenl] at hset
      have hfm := filterMap_id_shape (l.filterMap cardNum) [] (2 * p1 - p2)
      simp only [List.map_nil] at hx hy hset hfm
      have hlen3b : ¬(l.length + 1 < MIN_SEQ) := by
        simp only [MIN_SEQ]
        simp only [List.length_nil] at hlen
        omega
      simp [is_seq, hlen3, hlen3b, jokerIdx_append, hl, hnums, hc0, hlenl, hx, hy,
        hset, hfm, jokerSubstSpec, hrev]
    · have hl1 : 1 ≤ (l.filterMap cardNum).length := by
        rw [hlenl]
        rcases l with _ | ⟨a, as⟩
        · exact absurd rfl hl0
        · simp
      have hr1 : 1 ≤ (r.filterMap cardNum).length := by
        rw [hlenr]
        rcases r with _ | ⟨a, as⟩
        · exact absurd rfl hr0
        · simp
      rcases hrev : (l.filterMap cardNum).reverse with _ | ⟨p1, lt'⟩
      · exfalso
        have h0 : (l.filterMap cardNum).length = 0 := by
          rw [← List.length_reverse, hrev]
          rfl
        omega
      obtain ⟨n1, rt, hrn⟩ : ∃ n1 rt, r.filterMap cardNum = n1 :: rt := by
        rcases hx : r.filterMap cardNum with _ | ⟨n1, rt⟩
        · rw [hx] at hr1
          simp at hr1
        · exact ⟨n1, rt, rfl⟩
      have hg1 : (l.filterMap cardNum).get? (l.length - 1) = some p1 := by
        rw [← hlenl]
        exact get_last_of_reverse _ _ _ hrev
      have hv1 := (getNum_left (l.filterMap cardNum) (r.filterMap cardNum)
        (l.length - 1) (by omega)).trans hg1
      have hv2 : getNum ((l.filterMap cardNum).map some ++
          none :: (r.filterMap cardNum).map some) (l.length + 1) = some n1 := by
        have h := getNum_right (l.filterMap cardNum) (r.filterMap cardNum) 0
        rw [hlenl] at h
        rw [show l.length + 1 = l.length + 1 + 0 from rfl, h, hrn]
        rfl
      have hc0 : (l.length == 0) = false := by
        simp only [beq_eq_false_iff_ne, ne_eq]
        intro hz
        exact hl0 (List.length_eq_zero.mp hz)
      have hc1 : (l.length == ((l.filterMap cardNum).map some ++
          none :: (r.filterMap cardNum).map some).length - 1) = false := by
        simp only [beq_eq_false_iff_ne, ne_eq, List.length_append, List.length_map,
          List.length_cons, hlenl, hlenr]
        omega
      have hset := set_mid (l.filterMap cardNum) (r.filterMap cardNum) ((p1 + n1) / 2)
      rw [hlenl] at hset
      have hfm := filterMap_id_shape (l.filterMap cardNum) (r.filterMap cardNum)
        ((p1 + n1) / 2)
      have hlen3c : ¬(l.length + (r.length + 1) < MIN_SEQ) := by
        simp only [MIN_SEQ]
        omega
      have hspec : jokerSubstSpec (l.filterMap cardNum) (r.filterMap cardNum) =
          l.filterMap cardNum ++ ((p1 + n1) / 2) :: r.filterMap cardNum := by
        rw [hrn]
        simp [jokerSubstSpec, hrev]
      have hrnil : ¬(∀ a ∈ r, cardNum a = none) := by
        intro hall
        have hemp : r.filterMap cardNum = [] := List.filterMap_eq_nil.mpr hall
        rw [hrn] at hemp
        exact absurd hemp (by simp)
      simp [is_seq, hlen3, hlen3c, jokerIdx_append, hl, hnums, hc0, hc1, hrnil, hlenl,
        hv1, hv2, hset, hfm, hspec]

theorem allAdjEq_all_eq {α : Type} [DecidableEq α] :
    ∀ (xs : List α), allAdjEq xs = true → ∀ a ∈ xs, ∀ b ∈ xs, a = b
  | [], _, a, ha, _, _ => absurd ha (List.not_mem_nil a)
  | [x], _, a, ha, b, hb => by
    rw [List.mem_singleton] at ha hb
    rw [ha, hb]
  | x :: y :: rest, h, a, ha, b, hb => by
    simp only [allAdjEq, Bool.and_eq_true, beq_iff_eq] at h
    obtain ⟨hxy, hrest⟩ := h
    have hdown : ∀ c ∈ x :: y :: rest, c ∈ y :: rest := by
      intro c hc
      rcases List.mem_cons.mp hc with hc1 | hc2
      · rw [hc1, hxy]
        exact List.mem_cons_self y rest
      · exact hc2
    exact allAdjEq_all_eq (y :: rest) hrest a (hdown a ha) b (hdown b hb)

theorem zero_mem_adjDiffs :
    ∀ (as : List Int) (a : Int) (bs : List Int), (0 : Int) ∈ adjDiffs (as ++ a :: a :: bs)
  | [], a, bs => by
    simp only [List.nil_append, adjDiffs, List.mem_cons]
    left
    omega
  | x :: as', a, bs => by
    have ih := zero_mem_adjDiffs as' a bs
    cases hsh : as' ++ a :: a :: bs with
    | nil => simp at hsh
    | cons w ws =>
      rw [List.cons_append, hsh]
      simp only [adjDiffs, List.mem_cons]
      right
      rw [← hsh]
      exact ih

theorem diffsOk_false_of_zero_mem (vals : List Int) (h : (0 : Int) ∈ adjDiffs vals) :
    diffsOk vals = false := by
  unfold diffsOk
  cases hd : adjDiffs vals with
  | nil => rfl
  | cons d ds =>
    rw [hd] at h
    rcases List.mem_cons.mp h with h0 | h0
    · simp [← h0]
    · by_cases hall : ds.all (· == d)
      · have hd0 : (0 : Int) = d := by
          have := List.all_eq_true.mp hall _ h0
          simpa using this
        simp [← hd0]
      · simp [hall]

theorem filterMap_cardNum_eq (l : List Card) :
    l.filterMap cardNum = (l.filterMap cardRank).map rankNum := by
  induction l with
  | nil => rfl
  | cons c cs ih => cases c <;> simp [cardNum, cardRank, ih]

theorem same_ranks_spec_diffs_false (l r : List Card) (hl : Card.Joker ∉ l)
    (hr : Card.Joker ∉ r) (hlen : 3 ≤ l.length + 1 + r.length)
    (hsame : is_same_ranks (l ++ Card.Joker :: r) = true) :
    diffsOk (jokerSubstSpec (l.filterMap cardNum) (r.filterMap cardNum)) = false := by
  have hlenl := length_filterMap_cardNum l hl
  have hlenr := length_filterMap_cardNum r hr
  have hranks : (l ++ Card.Joker :: r).filterMap cardRank =
      l.filterMap cardRank ++ r.filterMap cardRank := by
    simp [List.filterMap_append, cardRank]
  rw [is_same_ranks, hranks] at hsame
  have hall := allAdjEq_all_eq _ hsame
  have hcomb : l.filterMap cardNum ++ r.filterMap cardNum =
      (l.filterMap cardRank ++ r.filterMap cardRank).map rankNum := by
    rw [filterMap_cardNum_eq l, filterMap_cardNum_eq r, List.map_append]
  have heq : ∀ x ∈ l.filterMap cardNum ++ r.filterMap cardNum,
      ∀ y ∈ l.filterMap cardNum ++ r.filterMap cardNum, x = y := by
    intro x hx y hy
    rw [hcomb] at hx hy
    obtain ⟨a, ha, rfl⟩ := List.mem_map.mp hx
    obtain ⟨b, hb, rfl⟩ := List.mem_map.mp hy
    rw [hall a ha b hb]
  by_cases hl0 : l.filterMap cardNum = []
  · -- joker first: the two cards after it carry equal ranks
    have hll : l.length = 0 := by rw [← hlenl, hl0]; rfl
    have hr2 : 2 ≤ (r.filterMap cardNum).length := by rw [hlenr]; omega
    obtain ⟨n1, n2, rt, hrn⟩ :
        ∃ n1 n2 rt, r.filterMap cardNum = n1 :: n2 :: rt := by
      rcases hx : r.filterMap cardNum with _ | ⟨n1, _ | ⟨n2, rt⟩⟩
      · rw [hx] at hr2; simp at hr2
      · rw [hx] at hr2; simp at hr2
      · exact ⟨n1, n2, rt, rfl⟩
    have h12 : n1 = n2 := by
      apply heq <;> (rw [hrn, hl0]; simp)
    rw [hl0, hrn, ← h12]
    have hz := zero_mem_adjDiffs [2 * n1 - n1] n1 rt
    exact diffsOk_false_of_zero_mem _ (by simpa [jokerSubstSpec] using hz)
  · by_cases hr0 : r.filterMap cardNum = []
    · -- joker last: the list before it has two adjacent equal ranks
      have hrr : r.length = 0 := by rw [← hlenr, hr0]; rfl
      have hl2 : 2 ≤ (l.filterMap cardNum).length := by rw [hlenl]; omega
      obtain ⟨q1, q2, w, hrev⟩ :
          ∃ q1 q2 w, (l.filterMap cardNum).reverse = q1 :: q2 :: w := by
        rcases hx : (l.filterMap cardNum).reverse with _ | ⟨q1, _ | ⟨q2, w⟩⟩
        · exfalso
          have h0 : (l.filterMap cardNum).length = 0 := by
            rw [← List.length_reverse, hx]
            rfl
          omega
        · exfalso
          have h0 : (l.filterMap cardNum).length = 1 := by
            rw [← List.length_reverse, hx]
            rfl
          omega
        · exact ⟨q1, q2, w, rfl⟩
      have hsp : jokerSubstSpec (l.filterMap cardNum) [] =
          l.filterMap cardNum ++ [2 * q1 - q2] := by
        simp [jokerSubstSpec, hrev]
      rw [hr0, hsp]
      obtain ⟨e1, e2, lt, hln⟩ :
          ∃ e1 e2 lt, l.filterMap cardNum = e1 :: e2 :: lt := by
        rcases hx : l.filterMap cardNum with _ | ⟨e1, _ | ⟨e2, lt⟩⟩
        · rw [hx] at hl2; simp at hl2
        · rw [hx] at hl2; simp at hl2
        · exact ⟨e1, e2, lt, rfl⟩
      have h12 : e1 = e2 := by
        apply heq <;> (rw [hln]; simp)
      rw [hln, ← h12]
      have hz := zero_mem_adjDiffs [] e1 (lt ++ [2 * q1 - q2])
      exact diffsOk_false_of_zero_mem _ (by simpa using hz)
    · -- joker interior
      obtain ⟨q1, lw, hrev⟩ : ∃ q1 lw, (l.filterMap cardNum).reverse = q1 :: lw := by
        rcases hx : (l.filterMap cardNum).reverse with _ | ⟨q1, lw⟩
        · exact absurd (by simpa using congrArg List.length hx) hl0
        · exact ⟨q1, lw, rfl⟩
      obtain ⟨n1, rw1, hrn⟩ : ∃ n1 rw1, r.filterMap cardNum = n1 :: rw1 := by
        rcases hx : r.filterMap cardNum with _ | ⟨n1, rw1⟩
        · exact absurd hx hr0
        · exact ⟨n1, rw1, rfl⟩
      have hsp : jokerSubstSpec (l.filterMap cardNum) (r.filterMap cardNum) =
          l.filterMap cardNum ++ ((q1 + n1) / 2) :: r.filterMap cardNum := by
        rw [hrn]
        simp [jokerSubstSpec, hrev]
      rw [hsp]
      rcases hln : l.filterMap cardNum with _ | ⟨e1, el⟩
      · exact absurd hln hl0
      rcases hel : el with _ | ⟨e2, lt⟩
      · -- single card before the joker
        rw [hrn]
        rcases hrw : rw1 with _ | ⟨m2, rt⟩
        · -- single card after the joker: the inferred mean equals both
          have he1 : e1 = n1 := by
            apply heq
            · rw [hln, hel]; simp
            · rw [hrn, hrw]; simp
          have hq1 : q1 = e1 := by
            rw [hln, hel] at hrev
            simp at hrev
            exact hrev.1.symm
          have hmid : (q1 + n1) / 2 = e1 := by
            rw [hq1, ← he1]
            omega
          rw [hmid, ← he1]
          have hz := zero_mem_adjDiffs [] e1 [e1]
          exact diffsOk_false_of_zero_mem _ (by simpa using hz)
        · -- two cards after the joker with equal ranks
          have h12 : n1 = m2 := by
            apply heq <;> (rw [hrn, hrw]; simp)
          rw [← h12]
          have hz := zero_mem_adjDiffs [e1, (q1 + n1) / 2] n1 rt
          exact diffsOk_false_of_zero_mem _ (by simpa using hz)
      · -- two cards before the joker with equal ranks
        have h12 : e1 = e2 := by
          apply heq <;> (rw [hln, hel]; simp)
        rw [← h12]
        have hz := zero_mem_adjDiffs [] e1 (lt ++ ((q1 + n1) / 2) :: r.filterMap cardNum)
        exact diffsOk_false_of_zero_mem _ (by simpa using hz)

theorem beforeJoker_append :
    ∀ (l r : List Card), Card.Joker ∉ l → beforeJoker (l ++ Card.Joker :: r) = l
  | [], r, _ => by simp [beforeJoker]
  | c :: cs, r, h => by
    have hc : (!(c == Card.Joker)) = true := by
      simp only [Bool.not_eq_eq_eq_not, Bool.not_true, beq_eq_false_iff_ne, ne_eq]
      intro hcc
      exact h (hcc ▸ List.mem_cons_self c cs)
    simp only [List.cons_append, beforeJoker, List.takeWhile_cons, hc, if_true]
    exact congrArg _ (beforeJoker_append cs r fun hm => h (List.mem_cons_of_mem c hm))

theorem afterJoker_append :
    ∀ (l r : List Card), Card.Joker ∉ l → afterJoker (l ++ Card.Joker :: r) = r
  | [], r, _ => by simp [afterJoker]
  | c :: cs, r, h => by
    have hc : (!(c == Card.Joker)) = true := by
      simp only [Bool.not_eq_eq_eq_not, Bool.not_true, beq_eq_false_iff_ne, ne_eq]
      intro hcc
      exact h (hcc ▸ List.mem_cons_self c cs)
    simp only [List.cons_append, afterJoker, List.dropWhile_cons, hc, if_true]
    exact afterJoker_append cs r fun hm => h (List.mem_cons_of_mem c hm)

/-- C5: a candidate Run holding exactly one Joker, of length at least three,
with all non-joker cards of one suit, classifies as a Run exactly when the
rank-position sequence obtained by replacing the Joker with its inferred
value (backward extrapolation 2 next - next2 at the front, forward
extrapolation 2 prev - prev2 at the end, the integer-division mean of its
neighbours in the interior) has all successive differences equal to a single
value of plus or minus one. -/
theorem c5_joker_run (cards : List Card)
    (hjk : cards.count Card.Joker = 1)
    (hlen : 3 ≤ cards.length)
    (hsuit : is_same_suits cards = true) :
    Comb.tryFrom cards = some (some (Comb.Seq cards)) ↔
      diffsOk (jokerSubstSpec ((beforeJoker cards).filterMap cardNum)
        ((afterJoker cards).filterMap cardNum)) = true := by
  obtain ⟨l, r, rfl, hl, hr⟩ := count_one_split cards hjk
  rw [beforeJoker_append l r hl, afterJoker_append l r hl]
  have hlen' : 3 ≤ l.length + 1 + r.length := by
    simp only [List.length_append, List.length_cons] at hlen
    omega
  have hbridge := is_seq_one_joker l r hl hr hlen'
  unfold Comb.tryFrom
  rw [if_neg (by simp only [MIN_MULTI]; omega)]
  by_cases hsr : is_same_ranks (l ++ Card.Joker :: r)
  · rw [if_pos hsr]
    have hfalse := same_ranks_spec_diffs_false l r hl hr hlen' hsr
    constructor
    · intro hc
      simp at hc
    · intro hd
      rw [hd] at hfalse
      simp at hfalse
  · rw [if_neg hsr,
      if_pos (⟨by simpa [MIN_SEQ] using hlen, hsuit⟩ :
        MIN_SEQ ≤ (l ++ Card.Joker :: r).length ∧
          is_same_suits (l ++ Card.Joker :: r) = true),
      hbridge]
    by_cases hd : diffsOk (jokerSubstSpec (l.filterMap cardNum) (r.filterMap cardNum))
    · simp [hd]
    · simp [hd]

/-- C5 witness: the spec example Spade 3, Joker, Spade 5, Spade 6 (the Joker
infers position 4) classifies as a Run. -/
theorem c5_joker_run_witness :
    (([Card.Normal Suit.Spade Rank.Three, Card.Joker, Card.Normal Suit.Spade Rank.Five,
        Card.Normal Suit.Spade Rank.Six] : List Card).count Card.Joker = 1 ∧
      3 ≤ ([Card.Normal Suit.Spade Rank.Three, Card.Joker, Card.Normal Suit.Spade Rank.Five,
        Card.Normal Suit.Spade Rank.Six] : List Card).length) ∧
    Comb.tryFrom [Card.Normal Suit.Spade Rank.Three, Card.Joker,
        Card.Normal Suit.Spade Rank.Five, Card.Normal Suit.Spade Rank.Six] =
      some (some (Comb.Seq [Card.Normal Suit.Spade Rank.Three, Card.Joker,
        Card.Normal Suit.Spade Rank.Five, Card.Normal Suit.Spade Rank.Six])) :=
  ⟨⟨by decide, by decide⟩,
    (c5_joker_run [Card.Normal Suit.Spade Rank.Three, Card.Joker,
        Card.Normal Suit.Spade Rank.Five, Card.Normal Suit.Spade Rank.Six]
      (by decide) (by decide) (by decide)).mpr (by decide)⟩

/-- C1 counterexample: two Jokers followed by two same-suit cards of distinct
ranks make the substitution step of is_seq unwrap the missing numeric value of
a Joker neighbour; classification panics (modelled none) instead of returning
a verdict, so classification is not total over arbitrary inputs. -/
theorem c1_counterexample :
    Comb.tryFrom [Card.Joker, Card.Joker, Card.Normal Suit.Spade Rank.Three,
      Card.Normal Suit.Spade Rank.Five] = none := by
  decide

/-- C1 amended: for every input holding at most one Joker, classification
terminates normally and returns either a Combination or a rejection; the
classifier never panics on such inputs. -/
theorem c1_classification_total (cards : List Card)
    (h : cards.count Card.Joker ≤ 1) :
    (Comb.tryFrom cards).isSome = true := by
  unfold Comb.tryFrom
  by_cases h2 : cards.length < MIN_MULTI
  · simp [h2]
  · rw [if_neg h2]
    by_cases hsr : is_same_ranks cards
    · simp [hsr]
    · rw [if_neg hsr]
      by_cases hg : MIN_SEQ ≤ cards.length ∧ is_same_suits cards = true
      · rw [if_pos hg]
        cases hc : cards.count Card.Joker with
        | zero =>
          have hnj : Card.Joker ∉ cards := List.count_eq_zero.mp hc
          have hji := jokerIdx_none cards hnj
          unfold is_seq
          by_cases hlt : cards.length < MIN_SEQ
          · simp [hlt]
          · simp only [hlt, if_false, hji]
            cases diffsOk (cards.filterMap cardNum) <;> rfl
        | succ n =>
          have hc1 : cards.count Card.Joker = 1 := by omega
          obtain ⟨l, r, rfl, hl, hr⟩ := count_one_split cards hc1
          have hg1 : 3 ≤ l.length + 1 + r.length := by
            have := hg.1
            simp only [List.length_append, List.length_cons, MIN_SEQ] at this
            omega
          rw [is_seq_one_joker l r hl hr hg1]
          cases diffsOk (jokerSubstSpec (l.filterMap cardNum) (r.filterMap cardNum)) <;> rfl
      · simp [hg]

/-- C1 amended witness: a Joker and a club Four classify without panic. -/
theorem c1_classification_total_witness :
    (([Card.Joker, Card.Normal Suit.Club Rank.Four] : List Card).count Card.Joker ≤ 1) ∧
      (Comb.tryFrom [Card.Joker, Card.Normal Suit.Club Rank.Four]).isSome = true :=
  ⟨by decide,
    c1_classification_total [Card.Joker, Card.Normal Suit.Club Rank.Four] (by decide)⟩

/-- C10 amended witness: the fresh-field panic, and totality at counter one
with active players remaining. -/
theorem c10_pass_countdown_witness :
    (1 ≤ ({ Field.new 4 0 with pass_counter := 1 } : Field).pass_counter ∧
      ({ Field.new 4 0 with pass_counter := 1 } : Field).indexer.active_players ≠ []) ∧
      Field.put (Field.new 4 0) none 5 = none ∧
      (Field.put ({ Field.new 4 0 with pass_counter := 1 } : Field) none 5).isSome = true :=
  ⟨⟨by decide, by decide⟩, c10_pass_countdown 4 0 5 5 _ (by decide) (by decide)⟩

end Daifugo
